import Mathlib

/-!
Verification of the Yotome frontend (React SPA for a RAG chat assistant).

The development shallowly embeds the client-side logic of
`src/frontend/src/components/Chat.tsx`, `src/frontend/src/components/Layout.tsx`
(the `DocumentList` part), `src/frontend/src/lib/api.ts`,
`src/frontend/src/lib/utils.ts` and the `DocumentUpload` component.
JavaScript strings are embedded as `List Char`; JS objects become structures;
`async` handlers become pure state-transition functions taking the awaited
network result as an explicit `Except` argument (the single-threaded event
loop applies one handler at a time, so a handler run is one atomic step).
-/

namespace Yotome

/-! ## Data model (the zod schemas of `src/frontend/src/lib/api.ts`) -/

/-- Field `ChatMessageSchema.role`: `z.enum(['user', 'assistant', 'system'])`. -/
inductive Role where
  | user : Role
  | assistant : Role
  | system : Role
  deriving DecidableEq

/-- Schema `ChatMessageSchema`: role and content. -/
structure ChatMessage where
  role : Role
  content : List Char
  deriving DecidableEq

/-- Schema `TokenUsageSchema`. -/
structure TokenUsage where
  prompt_tokens : Nat
  completion_tokens : Nat
  total_tokens : Nat
  deriving DecidableEq

/-- Schema `SourceCitationSchema`. The JS `score` is a float never computed on by the
client; it is embedded as an exact rational. The optional free-form `metadata`
record is never read by any code under verification and is omitted. -/
structure SourceCitation where
  doc_id : List Char
  filename : List Char
  chunk_index : Nat
  snippet : List Char
  score : Rat
  deriving DecidableEq

/-- Schema `ChatResponseSchema`. -/
structure ChatResponse where
  answer : List Char
  sources : List SourceCitation
  usage : Option TokenUsage
  follow_up : Option (List Char)
  deriving DecidableEq

/-- Schema `DocumentInfoSchema` (free-form optional `metadata` omitted, as above). -/
structure DocumentInfo where
  doc_id : List Char
  filename : List Char
  size : Nat
  mime_type : List Char
  uploaded_at : List Char
  chunks : Nat
  tags : List (List Char)
  deriving DecidableEq

/-- Schema `DeleteResponseSchema`. -/
structure DeleteResponse where
  deleted : Bool
  message : List Char
  deriving DecidableEq

/-- The `ApiError` class of `src/frontend/src/lib/api.ts`. -/
structure ApiError where
  message : List Char
  status : Option Nat
  code : Option (List Char)
  deriving DecidableEq

/-- The shape `handleApiError` inspects on a caught value: whether
`axios.isAxiosError` holds, the optional `error.response.status`,
`error.response.data.detail`, `error.response.data.error`,
`error.response.data.code`, and `error.message`.  A JS value that is absent or
`undefined` is `none`; an absent `message` is the empty string (both are falsy
and flow identically below). -/
structure RawError where
  isAxiosError : Bool
  status : Option Nat
  dataDetail : Option (List Char)
  dataError : Option (List Char)
  dataCode : Option (List Char)
  message : List Char
  deriving DecidableEq

/-- JS `a || b` specialised to an optional string `a`: the value of `a` when it
is present and truthy (non-empty), else `b`. -/
def jsOrElse (a : Option (List Char)) (b : List Char) : List Char :=
  match a with
  | some s => if s = [] then b else s
  | none => b

/-- Function `handleApiError` (`src/frontend/src/lib/api.ts:195`): axios errors keep
their status and code with message
`error.response?.data?.detail || error.response?.data?.error || error.message`;
anything else becomes `error.message || 'An unknown error occurred'`. -/
def handleApiError (e : RawError) : ApiError :=
  if e.isAxiosError then
    { message := jsOrElse e.dataDetail (jsOrElse e.dataError e.message)
      status := e.status
      code := e.dataCode }
  else
    { message := jsOrElse (some e.message) ("An unknown error occurred").data
      status := none
      code := none }

/-! ## The citation regex `/\[([^\]]+)#(\d+)\]/g`

`MessageContent.renderContent` (`Chat.tsx:327`) and `extractCitations`
(`utils.ts:34`) both scan message text with this regex.  A match is a
substring `'[' ++ f ++ '#' ++ d ++ ']'` where `f` (group 1, `[^\]]+`) is a
non-empty run of characters other than `']'` and `d` (group 2, `\d+`) is a
non-empty run of digits.  Because the content between the brackets can never
contain `']'`, the closing bracket of a match attempt at a given `'['` is the
first `']'` after it; backtracking of the greedy `[^\]]+` picks the longest
`f` whose remainder is `'#'` followed by digits only.  The JS engine finds
leftmost, non-overlapping matches. -/

/-- The characters before the first `']'` of a list, together with what
follows that `']'`; `none` when no `']'` occurs. -/
def splitAtRBracket : List Char → Option (List Char × List Char)
  | [] => none
  | c :: cs =>
    if c = ']' then some ([], cs)
    else
      match splitAtRBracket cs with
      | none => none
      | some (content, rest) => some (c :: content, rest)

/-- Greedy decomposition of bracket content as `f ++ '#' :: d` with `d` a
non-empty digit run reaching the end of the content, preferring the longest
`f` (the split at the last eligible `'#'`), exactly as the backtracking of
`[^\]]+#(\d+)` chooses it.  `f` may come out empty here; the caller enforces
the `+` of group 1. -/
def decomposeContent : List Char → Option (List Char × List Char)
  | [] => none
  | c :: cs =>
    match decomposeContent cs with
    | some (f, d) => some (c :: f, d)
    | none =>
      if c = '#' ∧ cs ≠ [] ∧ cs.all Char.isDigit then some ([], cs) else none

/-- The leftmost match of the citation regex: `some (pre, f, d, rest)` when
the scanned text is `pre ++ '[' ++ f ++ '#' ++ d ++ ']' ++ rest` with the
match starting as early as possible, `none` when the regex does not match. -/
def findMatch : List Char → Option (List Char × List Char × List Char × List Char)
  | [] => none
  | c :: cs =>
    let skip :=
      match findMatch cs with
      | none => none
      | some (pre, f, d, rest) => some (c :: pre, f, d, rest)
    if c = '[' then
      match splitAtRBracket cs with
      | none => skip
      | some (content, rest) =>
        match decomposeContent content with
        | none => skip
        | some (f, d) => if f = [] then skip else some ([], f, d, rest)
    else skip

/-- The full text of a match, `match[0]`: `'[' ++ f ++ '#' ++ d ++ ']'`. -/
def markerText (f d : List Char) : List Char :=
  '[' :: (f ++ '#' :: (d ++ [']']))

/-- Fuel-indexed repetition of `findMatch`, modelling
`text.split(citationRegex)`: JS `String.split` on a regex with two capture
groups interleaves the groups with the surrounding text, so a text with `N`
matches yields `3 * N + 1` parts `t0, f1, d1, t1, ..., fN, dN, tN`.  The fuel
only bounds recursion depth; `citationSplit` supplies enough for any input. -/
def citationSplitGo : Nat → List Char → List (List Char)
  | 0, s => [s]
  | n + 1, s =>
    match findMatch s with
    | none => [s]
    | some (pre, f, d, rest) => pre :: f :: d :: citationSplitGo n rest

/-- Computation `const parts = text.split(citationRegex)` of `renderContent`
(`Chat.tsx:332`). -/
def citationSplit (s : List Char) : List (List Char) :=
  citationSplitGo s.length s

/-- The successive (filename, digits) capture pairs of the global regex over a
text, leftmost first: the matches `renderContent` and `extractCitations` both
see.  Fuel as in `citationSplitGo`. -/
def textMarkersGo : Nat → List Char → List (List Char × List Char)
  | 0, _ => []
  | n + 1, s =>
    match findMatch s with
    | none => []
    | some (_, f, d, rest) => (f, d) :: textMarkersGo n rest

/-- The citation markers of a text, in left-to-right match order. -/
def textMarkers (s : List Char) : List (List Char × List Char) :=
  textMarkersGo s.length s

/-- Fuel-indexed body of the `while ((match = citationRegex.exec(text)))` loop
of `extractCitations` (`utils.ts:34`): each iteration pushes `match[0]`. -/
def extractCitationsGo : Nat → List Char → List (List Char)
  | 0, _ => []
  | n + 1, s =>
    match findMatch s with
    | none => []
    | some (_, f, d, rest) => markerText f d :: extractCitationsGo n rest

/-- Function `extractCitations` (`src/frontend/src/lib/utils.ts:34`). -/
def extractCitations (s : List Char) : List (List Char) :=
  extractCitationsGo s.length s

/-- A React node produced by `renderContent` (`Chat.tsx:334`): a plain text
span, a citation span (carrying the filename `part` and the digit sequence
`parts[index + 1]` it renders in its tooltip and label), or the `null` node
emitted for the digit-group slots. -/
inductive RNode where
  | textSpan : List Char → RNode
  | citation : List Char → List Char → RNode
  | nullNode : RNode
  deriving DecidableEq

/-- Mapping `parts.map((part, index) => ...)` of `renderContent`: slots with
`index % 3 === 1` are filenames and become citation spans whose chunk index is
the following part (`parts[index + 1]`), slots with `index % 3 === 2` become
`null`, all others plain text spans. -/
def renderParts : List (List Char) → Nat → List RNode
  | [], _ => []
  | p :: ps, i =>
    (if i % 3 = 1 then RNode.citation p (ps.headD [])
     else if i % 3 = 2 then RNode.nullNode
     else RNode.textSpan p) :: renderParts ps (i + 1)

/-- Function `renderContent` of `MessageContent` (`Chat.tsx:329`). -/
def renderContent (s : List Char) : List RNode :=
  renderParts (citationSplit s) 0

/-- The text a rendered node displays: a text span shows its text, a citation
span shows `[{part}#{chunkIndex}]`, a `null` node shows nothing. -/
def nodeText : RNode → List Char
  | RNode.textSpan s => s
  | RNode.citation f d => markerText f d
  | RNode.nullNode => []

/-- The full visible text of a rendered message. -/
def renderedText (s : List Char) : List Char :=
  ((renderContent s).map nodeText).flatten

/-- The citation elements among a list of rendered nodes, with the filename
and digit sequence each carries. -/
def citationNodes (ns : List RNode) : List (List Char × List Char) :=
  ns.filterMap fun n =>
    match n with
    | RNode.citation f d => some (f, d)
    | _ => none

/-! ## JS string trimming

`String.prototype.trim` removes the ECMAScript WhiteSpace and LineTerminator
characters from both ends. -/

/-- The ECMAScript white-space set that `trim` strips: TAB, LF, VT, FF, CR,
the Zs category (U+0020, U+00A0, U+1680, U+2000 to U+200A, U+202F, U+205F,
U+3000), the line and paragraph separators U+2028 and U+2029, and the
ZWNBSP U+FEFF. -/
def jsIsWhitespace (c : Char) : Bool :=
  c == '\t' || c == '\n' || c == '\x0b' || c == '\x0c' || c == '\r' ||
  c == ' ' || c == '\u00a0' || c == '\u1680' ||
  ('\u2000' ≤ c && c ≤ '\u200a') || c == '\u2028' || c == '\u2029' ||
  c == '\u202f' || c == '\u205f' || c == '\u3000' || c == '\ufeff'

/-- JS `s.trim()`: drop white space from both ends. -/
def jsTrim (s : List Char) : List Char :=
  ((s.dropWhile jsIsWhitespace).reverse.dropWhile jsIsWhitespace).reverse

/-! ## The `Chat` component (`src/frontend/src/components/Chat.tsx`) -/

/-- The state hooks of `Chat` (`Chat.tsx:16`): the transcript, the input box,
the in-flight flag, the grounding toggle, and the side table mapping message
ids to source citations (a JS object; embedded as an association list where an
insert prepends, so a lookup sees the newest binding for a key, exactly as
`{...prev, [messageId]: sources}` makes the new binding win). -/
structure ChatState where
  messages : List ChatMessage
  input : List Char
  isLoading : Bool
  ragOnly : Bool
  sources : List (List Char × List SourceCitation)
  deriving DecidableEq

/-- The key `assistant-${n}` under which sources of the assistant message at
position `n` are stored (`Chat.tsx:69`). -/
def messageKey (n : Nat) : List Char :=
  ("assistant-").data ++ Nat.toDigits 10 n

/-- The synthetic assistant content built in the catch branch of
`handleSubmit` (`Chat.tsx:81`). -/
def chatErrorText (msg : List Char) : List Char :=
  ("Sorry, I encountered an error: ").data ++ msg ++ (". Please try again.").data

/-- Function `handleSubmit` (`Chat.tsx:41`) as one atomic step.  The awaited
`api.chat` outcome is the explicit `result` argument: `Except.ok` a validated
`ChatResponse`, `Except.error` the caught value.  Returns the new component
state and whether a chat request was issued.  The guard
`if (!input.trim() || isLoading) return` makes the step a no-op issuing no
request; otherwise the trimmed input is appended as a user message, and the
response (or the normalized error) is appended as an assistant message, with
non-empty sources stored under the assistant message's position key. -/
def handleSubmit (st : ChatState) (result : Except RawError ChatResponse) :
    ChatState × Bool :=
  if jsTrim st.input = [] ∨ st.isLoading then (st, false)
  else
    let userMessage : ChatMessage := { role := Role.user, content := jsTrim st.input }
    let newMessages := st.messages ++ [userMessage]
    match result with
    | Except.ok response =>
      let assistantMessage : ChatMessage :=
        { role := Role.assistant, content := response.answer }
      let finalMessages := newMessages ++ [assistantMessage]
      let sources1 :=
        if response.sources.length > 0 then
          (messageKey (finalMessages.length - 1), response.sources) :: st.sources
        else st.sources
      ({ st with
          messages := finalMessages
          input := []
          isLoading := false
          sources := sources1 }, true)
    | Except.error err =>
      let apiError := handleApiError err
      let errorMessage : ChatMessage :=
        { role := Role.assistant, content := chatErrorText apiError.message }
      ({ st with
          messages := newMessages ++ [errorMessage]
          input := []
          isLoading := false }, true)

/-! ## Tag parsing in `DocumentUpload` (`handleUpload`) -/

/-- JS `s.split(',')`: the comma-separated pieces of a string, where an empty
string yields one empty piece and consecutive commas yield empty pieces. -/
def splitOnComma : List Char → List (List Char)
  | [] => [[]]
  | c :: cs =>
    if c = ',' then [] :: splitOnComma cs
    else
      match splitOnComma cs with
      | [] => [[c]]
      | p :: ps => (c :: p) :: ps

/-- The tag list `handleUpload` builds at submit time
(`DocumentUpload`, `handleUpload`):
`uploadState.tags.split(',').map(tag => tag.trim()).filter(tag => tag.length > 0)`. -/
def parseTags (s : List Char) : List (List Char) :=
  ((splitOnComma s).map jsTrim).filter (fun t => t != [])

/-- JS `tags.join(',')` (`api.uploadDocument`, `api.ts:152`): the pieces
re-joined with commas. -/
def joinComma : List (List Char) → List Char
  | [] => []
  | p :: ps =>
    match ps with
    | [] => p
    | _ :: _ => p ++ ',' :: joinComma ps

/-! ## Document filtering in `DocumentList` (`Layout.tsx:238`) -/

/-- JS `String.prototype.toLowerCase` on the ASCII range (the client
lowercases filename, tags and query before comparing). -/
def lowerList (s : List Char) : List Char :=
  s.map Char.toLower

/-- Whether `needle` is a leading segment of `hay` (helper for JS
`String.prototype.includes`). -/
def hasPrefixSeq : List Char → List Char → Bool
  | _, [] => true
  | [], _ :: _ => false
  | a :: as, b :: bs => a == b && hasPrefixSeq as bs

/-- JS `hay.includes(needle)`: substring containment. -/
def containsSub : List Char → List Char → Bool
  | [], needle => needle.isEmpty
  | a :: as, needle => hasPrefixSeq (a :: as) needle || containsSub as needle

/-- The query stage of `filterDocuments` (`Layout.tsx:241`): with a truthy
(non-empty) query keep documents whose lowercased filename, or some
lowercased tag, contains the lowercased query; an empty query filters
nothing. -/
def filterByQuery (query : List Char) (docs : List DocumentInfo) :
    List DocumentInfo :=
  if query = [] then docs
  else
    docs.filter fun doc =>
      containsSub (lowerList doc.filename) (lowerList query)
      || doc.tags.any fun t => containsSub (lowerList t) (lowerList query)

/-- The tag stage of `filterDocuments` (`Layout.tsx:249`): with a truthy
(non-empty) selected tag keep documents whose tag list contains it; an empty
selection filters nothing. -/
def filterByTag (tag : List Char) (docs : List DocumentInfo) :
    List DocumentInfo :=
  if tag = [] then docs
  else docs.filter fun doc => doc.tags.contains tag

/-- Function `filterDocuments` (`Layout.tsx:238`): the query stage then the tag stage
over the full document list. -/
def filterDocuments (docs : List DocumentInfo) (query tag : List Char) :
    List DocumentInfo :=
  filterByTag tag (filterByQuery query docs)

/-! ## The `DocumentList` state machine (`Layout.tsx:207`) -/

/-- The state hooks of `DocumentList` that the load, filter and delete
handlers touch: the full list, the filtered list, the loading flag and the
error banner. -/
structure DocListState where
  documents : List DocumentInfo
  filteredDocuments : List DocumentInfo
  loading : Bool
  error : Option (List Char)
  deriving DecidableEq

/-- The initial hook values (`Layout.tsx:208`): empty lists, `loading`
initially true, no error. -/
def initialDocListState : DocListState :=
  { documents := [], filteredDocuments := [], loading := true, error := none }

/-- One user-visible operation on `DocumentList`, with the awaited network
outcome explicit: a (re)load via `loadDocuments`, a debounced
`filterDocuments(query, selectedTag)` run, or a `handleDelete(docId)`. -/
inductive DocListEvent where
  | load (result : Except RawError (List DocumentInfo))
  | search (query tag : List Char)
  | deleteDoc (docId : List Char) (result : Except RawError DeleteResponse)

/-- The state transition of each handler, read off `loadDocuments`
(`Layout.tsx:222`), `filterDocuments` (`Layout.tsx:238`) and `handleDelete`
(`Layout.tsx:257`): a successful load replaces both lists with the response
items; a failed load or delete only records the normalized error message; a
filter run recomputes the filtered list from the full list; a successful
delete drops every document with the deleted id from both lists. -/
def docListStep (st : DocListState) (e : DocListEvent) : DocListState :=
  match e with
  | DocListEvent.load (Except.ok items) =>
    { st with
        documents := items
        filteredDocuments := items
        loading := false
        error := none }
  | DocListEvent.load (Except.error err) =>
    { st with loading := false, error := some (handleApiError err).message }
  | DocListEvent.search q t =>
    { st with filteredDocuments := filterDocuments st.documents q t }
  | DocListEvent.deleteDoc d (Except.ok _) =>
    { st with
        documents := st.documents.filter fun doc => doc.doc_id != d
        filteredDocuments := st.filteredDocuments.filter fun doc => doc.doc_id != d }
  | DocListEvent.deleteDoc _ (Except.error err) =>
    { st with error := some (handleApiError err).message }

/-- The state after a sequence of `DocumentList` operations from the initial
mount state. -/
def docListRun (events : List DocListEvent) : DocListState :=
  events.foldl docListStep initialDocListState

/-! ## Streaming chat (`streamChat`, `src/frontend/src/lib/api.ts:208`)

The loop body consumes complete server-sent-event lines.  `JSON.parse` is a
platform builtin, so the processing loop is parametrized by an abstract
parser `parse : List Char → Option Json` (`none` embeds a thrown
`SyntaxError`). -/

/-- A parsed JSON value. -/
inductive Json where
  | null : Json
  | bool : Bool → Json
  | num : Int → Json
  | str : List Char → Json
  | arr : List Json → Json
  | obj : List (List Char × Json) → Json

/-- JS truthiness of a parsed JSON value (`if (parsed.token)`). -/
def jsTruthy : Json → Bool
  | Json.null => false
  | Json.bool b => b
  | Json.num n => n != 0
  | Json.str s => !s.isEmpty
  | Json.arr _ => true
  | Json.obj _ => true

/-- The characters of the key `token`. -/
def tokenKey : List Char := ("token").data

/-- The JS property read `parsed.token`: a field lookup on an object; reading
`.token` of a non-object yields `undefined` (or throws on `null`, which the
surrounding `catch` absorbs) — observably, no token in either case. -/
def tokenField : Json → Option Json
  | Json.obj fields => fields.lookup tokenKey
  | _ => none

/-- The characters of the event-line marker `data: `. -/
def dataMarker : List Char := ("data: ").data

/-- The characters of the terminal payload `[DONE]`. -/
def doneMarker : List Char := ("[DONE]").data

/-- The `for (const line of lines)` loop of `streamChat` (`api.ts:247`) over
complete lines: a line not starting with `data: ` is ignored; the payload
`line.slice(6)` equal to `[DONE]` returns from the generator (no further line
is read); a payload `parse` rejects is skipped with a logged warning; a
payload whose parse has a truthy `token` field yields that token.  Returns
the yielded tokens in order and whether `[DONE]` terminated the stream. -/
def streamChatLines (parse : List Char → Option Json) :
    List (List Char) → List Json × Bool
  | [] => ([], false)
  | line :: rest =>
    if hasPrefixSeq line dataMarker then
      let data := line.drop 6
      if data = doneMarker then ([], true)
      else
        match parse data with
        | none => streamChatLines parse rest
        | some parsed =>
          match tokenField parsed with
          | some tok =>
            if jsTruthy tok then
              let out := streamChatLines parse rest
              (tok :: out.1, out.2)
            else streamChatLines parse rest
          | none => streamChatLines parse rest
    else streamChatLines parse rest

/-- The payload `{"token": ""}` as characters (`\x7b`/`\x7d` are the braces). -/
def emptyTokenPayload : List Char :=
  '\x7b' :: '"' :: 't' :: 'o' :: 'k' :: 'e' :: 'n' :: '"' :: ':' :: ' ' ::
    '"' :: '"' :: '\x7d' :: []

/-- Builtin `JSON.parse` restricted to the single concrete payload the counterexample
uses: `JSON.parse('\x7b"token": ""\x7d')` is the object with an empty-string
`token` field; every other input is treated as a parse failure. -/
def parseOnlyEmptyToken (s : List Char) : Option Json :=
  if s = emptyTokenPayload then some (Json.obj [(tokenKey, Json.str [])])
  else none

/-! ## Concrete sample values (used by the closed witness theorems) -/

/-- A concrete source citation. -/
def sampleCitation : SourceCitation :=
  { doc_id := ('d' :: []), filename := ('f' :: []), chunk_index := 3
    snippet := [], score := 1 }

/-- A concrete successful chat response carrying one source. -/
def sampleResponse : ChatResponse :=
  { answer := ('o' :: 'k' :: []), sources := [sampleCitation]
    usage := none, follow_up := none }

/-- A concrete non-axios thrown value with message `boom`. -/
def sampleError : RawError :=
  { isAxiosError := false, status := none, dataDetail := none
    dataError := none, dataCode := none
    message := ('b' :: 'o' :: 'o' :: 'm' :: []) }

/-- A concrete idle chat state with input `hi`. -/
def sampleIdleState : ChatState :=
  { messages := [], input := ('h' :: 'i' :: []), isLoading := false
    ragOnly := true, sources := [] }

/-- The idle sample state with the in-flight flag set. -/
def sampleLoadingState : ChatState :=
  { messages := [], input := ('h' :: 'i' :: []), isLoading := true
    ragOnly := true, sources := [] }

/-- The idle sample state with a whitespace-only input. -/
def sampleBlankState : ChatState :=
  { messages := [], input := (' ' :: '\t' :: []), isLoading := false
    ragOnly := true, sources := [] }

/-! ## Soundness of the citation-regex scanner -/

theorem splitAtRBracket_sound {s content rest : List Char}
    (h : splitAtRBracket s = some (content, rest)) :
    s = content ++ ']' :: rest ∧ ∀ c ∈ content, c ≠ ']' := by
  induction s generalizing content rest with
  | nil => simp [splitAtRBracket] at h
  | cons c cs ih =>
    by_cases hc : c = ']'
    · rw [splitAtRBracket, if_pos hc] at h
      simp only [Option.some.injEq, Prod.mk.injEq] at h
      obtain ⟨h1, h2⟩ := h
      subst h1
      subst h2
      subst hc
      exact ⟨rfl, by simp⟩
    · rw [splitAtRBracket, if_neg hc] at h
      cases hsp : splitAtRBracket cs with
      | none => rw [hsp] at h; simp at h
      | some p =>
        obtain ⟨content1, rest1⟩ := p
        rw [hsp] at h
        simp only [Option.some.injEq, Prod.mk.injEq] at h
        obtain ⟨h1, h2⟩ := h
        obtain ⟨he, hni⟩ := ih hsp
        subst h1
        subst h2
        refine ⟨by rw [he]; rfl, ?_⟩
        intro x hx
        rcases List.mem_cons.mp hx with hx | hx
        · subst hx; exact hc
        · exact hni x hx

theorem decomposeContent_sound {s f d : List Char}
    (h : decomposeContent s = some (f, d)) :
    s = f ++ '#' :: d ∧ d ≠ [] ∧ d.all Char.isDigit = true := by
  induction s generalizing f d with
  | nil => simp [decomposeContent] at h
  | cons c cs ih =>
    rw [decomposeContent] at h
    cases hdc : decomposeContent cs with
    | some p =>
      obtain ⟨f1, d1⟩ := p
      rw [hdc] at h
      simp only [Option.some.injEq, Prod.mk.injEq] at h
      obtain ⟨h1, h2⟩ := h
      obtain ⟨he, hne, hdig⟩ := ih hdc
      subst h1
      subst h2
      exact ⟨by rw [he]; rfl, hne, hdig⟩
    | none =>
      rw [hdc] at h
      by_cases hcond : c = '#' ∧ cs ≠ [] ∧ cs.all Char.isDigit = true
      · rw [if_pos hcond] at h
        simp only [Option.some.injEq, Prod.mk.injEq] at h
        obtain ⟨h1, h2⟩ := h
        subst h1
        subst h2
        exact ⟨by rw [hcond.1]; rfl, hcond.2.1, hcond.2.2⟩
      · rw [if_neg hcond] at h
        simp at h

theorem findMatch_sound {s pre f d rest : List Char}
    (h : findMatch s = some (pre, f, d, rest)) :
    s = pre ++ markerText f d ++ rest ∧ f ≠ [] ∧ (∀ c ∈ f, c ≠ ']')
      ∧ d ≠ [] ∧ d.all Char.isDigit = true := by
  induction s generalizing pre f d rest with
  | nil => simp [findMatch] at h
  | cons c cs ih =>
    simp only [findMatch] at h
    have hskip : (match findMatch cs with
        | none => none
        | some (pre, f, d, rest) => some (c :: pre, f, d, rest)) =
          some (pre, f, d, rest) →
        c :: cs = pre ++ markerText f d ++ rest ∧ f ≠ [] ∧ (∀ x ∈ f, x ≠ ']')
          ∧ d ≠ [] ∧ d.all Char.isDigit = true := by
      intro hs
      cases hfm : findMatch cs with
      | none => rw [hfm] at hs; simp at hs
      | some q =>
        obtain ⟨pre1, f1, d1, rest1⟩ := q
        rw [hfm] at hs
        simp only [Option.some.injEq, Prod.mk.injEq] at hs
        obtain ⟨h1, h2, h3, h4⟩ := hs
        obtain ⟨he, hrest⟩ := ih hfm
        subst h1
        subst h2
        subst h3
        subst h4
        exact ⟨by rw [he]; rfl, hrest⟩
    by_cases hc : c = '['
    · rw [if_pos hc] at h
      cases hsp : splitAtRBracket cs with
      | none => rw [hsp] at h; exact hskip h
      | some p =>
        obtain ⟨content, rest1⟩ := p
        simp only [hsp] at h
        cases hdc : decomposeContent content with
        | none => simp only [hdc] at h; exact hskip h
        | some q =>
          obtain ⟨f1, d1⟩ := q
          simp only [hdc] at h
          by_cases hf : f1 = []
          · rw [if_pos hf] at h; exact hskip h
          · rw [if_neg hf] at h
            simp only [Option.some.injEq, Prod.mk.injEq] at h
            obtain ⟨h1, h2, h3, h4⟩ := h
            obtain ⟨hcs, hnb⟩ := splitAtRBracket_sound hsp
            obtain ⟨hcontent, hdne, hdig⟩ := decomposeContent_sound hdc
            subst h1
            subst h2
            subst h3
            subst h4
            subst hc
            refine ⟨?_, hf, ?_, hdne, hdig⟩
            · rw [hcs, hcontent]
              simp [markerText]
            · intro x hx
              exact hnb x (by rw [hcontent]; exact List.mem_append_left _ hx)
    · rw [if_neg hc] at h
      exact hskip h

theorem findMatch_rest_length {s pre f d rest : List Char}
    (h : findMatch s = some (pre, f, d, rest)) : rest.length < s.length := by
  have he := (findMatch_sound h).1
  rw [he]
  simp [markerText]
  omega

theorem citationSplitGo_congr : ∀ {n m : Nat} {s : List Char},
    s.length ≤ n → s.length ≤ m → citationSplitGo n s = citationSplitGo m s := by
  intro n
  induction n with
  | zero =>
    intro m s hn _
    have hs : s = [] := List.length_eq_zero.mp (Nat.le_zero.mp hn)
    subst hs
    cases m with
    | zero => rfl
    | succ m => simp [citationSplitGo, findMatch]
  | succ n ih =>
    intro m s hn hm
    cases hfm : findMatch s with
    | none =>
      cases m with
      | zero =>
        have hs : s = [] := List.length_eq_zero.mp (Nat.le_zero.mp hm)
        subst hs
        simp [citationSplitGo, findMatch]
      | succ m => simp [citationSplitGo, hfm]
    | some q =>
      obtain ⟨pre, f, d, rest⟩ := q
      have hlt := findMatch_rest_length hfm
      cases m with
      | zero => omega
      | succ m =>
        simp only [citationSplitGo, hfm]
        have : citationSplitGo n rest = citationSplitGo m rest :=
          ih (by omega) (by omega)
        rw [this]

theorem citationSplit_eq (s : List Char) :
    citationSplit s =
      match findMatch s with
      | none => [s]
      | some (pre, f, d, rest) => pre :: f :: d :: citationSplit rest := by
  cases hfm : findMatch s with
  | none =>
    cases s with
    | nil => rfl
    | cons c cs => simp [citationSplit, citationSplitGo, hfm]
  | some q =>
    obtain ⟨pre, f, d, rest⟩ := q
    have hlt := findMatch_rest_length hfm
    cases s with
    | nil => simp [findMatch] at hfm
    | cons c cs =>
      show citationSplitGo (c :: cs).length (c :: cs) = _
      simp only [List.length_cons, citationSplitGo, hfm]
      have hcg : citationSplitGo cs.length rest = citationSplitGo rest.length rest :=
        citationSplitGo_congr (by simp only [List.length_cons] at hlt; omega) le_rfl
      rw [hcg]
      rfl

theorem textMarkersGo_congr : ∀ {n m : Nat} {s : List Char},
    s.length ≤ n → s.length ≤ m → textMarkersGo n s = textMarkersGo m s := by
  intro n
  induction n with
  | zero =>
    intro m s hn _
    have hs : s = [] := List.length_eq_zero.mp (Nat.le_zero.mp hn)
    subst hs
    cases m with
    | zero => rfl
    | succ m => simp [textMarkersGo, findMatch]
  | succ n ih =>
    intro m s hn hm
    cases hfm : findMatch s with
    | none =>
      cases m with
      | zero =>
        have hs : s = [] := List.length_eq_zero.mp (Nat.le_zero.mp hm)
        subst hs
        simp [textMarkersGo, findMatch]
      | succ m => simp [textMarkersGo, hfm]
    | some q =>
      obtain ⟨pre, f, d, rest⟩ := q
      have hlt := findMatch_rest_length hfm
      cases m with
      | zero => omega
      | succ m =>
        simp only [textMarkersGo, hfm]
        have hrec : textMarkersGo n rest = textMarkersGo m rest :=
          ih (by omega) (by omega)
        rw [hrec]

theorem textMarkers_eq (s : List Char) :
    textMarkers s =
      match findMatch s with
      | none => []
      | some (_, f, d, rest) => (f, d) :: textMarkers rest := by
  cases hfm : findMatch s with
  | none =>
    cases s with
    | nil => rfl
    | cons c cs => simp [textMarkers, textMarkersGo, hfm]
  | some q =>
    obtain ⟨pre, f, d, rest⟩ := q
    have hlt := findMatch_rest_length hfm
    cases s with
    | nil => simp [findMatch] at hfm
    | cons c cs =>
      show textMarkersGo (c :: cs).length (c :: cs) = _
      simp only [List.length_cons, textMarkersGo, hfm]
      have hcg : textMarkersGo cs.length rest = textMarkersGo rest.length rest :=
        textMarkersGo_congr (by simp only [List.length_cons] at hlt; omega) le_rfl
      rw [hcg]
      rfl

theorem extractCitationsGo_congr : ∀ {n m : Nat} {s : List Char},
    s.length ≤ n → s.length ≤ m → extractCitationsGo n s = extractCitationsGo m s := by
  intro n
  induction n with
  | zero =>
    intro m s hn _
    have hs : s = [] := List.length_eq_zero.mp (Nat.le_zero.mp hn)
    subst hs
    cases m with
    | zero => rfl
    | succ m => simp [extractCitationsGo, findMatch]
  | succ n ih =>
    intro m s hn hm
    cases hfm : findMatch s with
    | none =>
      cases m with
      | zero =>
        have hs : s = [] := List.length_eq_zero.mp (Nat.le_zero.mp hm)
        subst hs
        simp [extractCitationsGo, findMatch]
      | succ m => simp [extractCitationsGo, hfm]
    | some q =>
      obtain ⟨pre, f, d, rest⟩ := q
      have hlt := findMatch_rest_length hfm
      cases m with
      | zero => omega
      | succ m =>
        simp only [extractCitationsGo, hfm]
        have hrec : extractCitationsGo n rest = extractCitationsGo m rest :=
          ih (by omega) (by omega)
        rw [hrec]

theorem extractCitations_eq (s : List Char) :
    extractCitations s =
      match findMatch s with
      | none => []
      | some (_, f, d, rest) => markerText f d :: extractCitations rest := by
  cases hfm : findMatch s with
  | none =>
    cases s with
    | nil => rfl
    | cons c cs => simp [extractCitations, extractCitationsGo, hfm]
  | some q =>
    obtain ⟨pre, f, d, rest⟩ := q
    have hlt := findMatch_rest_length hfm
    cases s with
    | nil => simp [findMatch] at hfm
    | cons c cs =>
      show extractCitationsGo (c :: cs).length (c :: cs) = _
      simp only [List.length_cons, extractCitationsGo, hfm]
      have hcg : extractCitationsGo cs.length rest = extractCitationsGo rest.length rest :=
        extractCitationsGo_congr (by simp only [List.length_cons] at hlt; omega) le_rfl
      rw [hcg]
      rfl

theorem renderParts_add3 (ps : List (List Char)) (i : Nat) :
    renderParts ps (i + 3) = renderParts ps i := by
  induction ps generalizing i with
  | nil => rfl
  | cons p ps ih =>
    simp only [renderParts, Nat.add_mod_right]
    have hrec := ih (i + 1)
    rw [show i + 3 + 1 = i + 1 + 3 by omega, hrec]

theorem renderContent_eq (s : List Char) :
    renderContent s =
      match findMatch s with
      | none => [RNode.textSpan s]
      | some (pre, f, d, rest) =>
        RNode.textSpan pre :: RNode.citation f d :: RNode.nullNode ::
          renderContent rest := by
  unfold renderContent
  rw [citationSplit_eq]
  cases hfm : findMatch s with
  | none => rfl
  | some q =>
    obtain ⟨pre, f, d, rest⟩ := q
    simp only [renderParts]
    norm_num
    exact renderParts_add3 (citationSplit rest) 0

theorem renderedText_aux : ∀ (n : Nat) (s : List Char), s.length ≤ n →
    renderedText s = s := by
  intro n
  induction n with
  | zero =>
    intro s hs
    have h0 : s = [] := List.length_eq_zero.mp (Nat.le_zero.mp hs)
    subst h0
    rfl
  | succ n ih =>
    intro s hs
    unfold renderedText
    rw [renderContent_eq]
    cases hfm : findMatch s with
    | none => simp [nodeText]
    | some q =>
      obtain ⟨pre, f, d, rest⟩ := q
      have hlt := findMatch_rest_length hfm
      have hsound := (findMatch_sound hfm).1
      have hrec : renderedText rest = rest := ih rest (by omega)
      unfold renderedText at hrec
      simp only [List.map_cons, List.flatten_cons, nodeText]
      rw [hrec, hsound]
      simp

theorem citationNodes_render_aux : ∀ (n : Nat) (s : List Char), s.length ≤ n →
    citationNodes (renderContent s) = textMarkers s := by
  intro n
  induction n with
  | zero =>
    intro s hs
    have h0 : s = [] := List.length_eq_zero.mp (Nat.le_zero.mp hs)
    subst h0
    rfl
  | succ n ih =>
    intro s hs
    rw [renderContent_eq, textMarkers_eq]
    cases hfm : findMatch s with
    | none => simp [citationNodes]
    | some q =>
      obtain ⟨pre, f, d, rest⟩ := q
      have hlt := findMatch_rest_length hfm
      have hrec := ih rest (by omega)
      simp only [citationNodes, List.filterMap_cons] at hrec ⊢
      rw [hrec]

theorem textMarkers_wellformed_aux : ∀ (n : Nat) (s : List Char), s.length ≤ n →
    ∀ fd ∈ textMarkers s, fd.1 ≠ [] ∧ (∀ c ∈ fd.1, c ≠ ']')
      ∧ fd.2 ≠ [] ∧ fd.2.all Char.isDigit = true := by
  intro n
  induction n with
  | zero =>
    intro s hs
    have h0 : s = [] := List.length_eq_zero.mp (Nat.le_zero.mp hs)
    subst h0
    intro fd hfd
    simp [textMarkers, textMarkersGo] at hfd
  | succ n ih =>
    intro s hs fd hfd
    rw [textMarkers_eq] at hfd
    cases hfm : findMatch s with
    | none => rw [hfm] at hfd; simp at hfd
    | some q =>
      obtain ⟨pre, f, d, rest⟩ := q
      have hlt := findMatch_rest_length hfm
      rw [hfm] at hfd
      rcases List.mem_cons.mp hfd with hfd | hfd
      · subst hfd
        obtain ⟨_, hf, hnb, hd, hdig⟩ := findMatch_sound hfm
        exact ⟨hf, hnb, hd, hdig⟩
      · exact ih rest (by omega) fd hfd

theorem renderContent_of_no_markers {s : List Char} (h : textMarkers s = []) :
    renderContent s = [RNode.textSpan s] := by
  rw [renderContent_eq]
  rw [textMarkers_eq] at h
  cases hfm : findMatch s with
  | none => rfl
  | some q =>
    obtain ⟨pre, f, d, rest⟩ := q
    rw [hfm] at h
    simp at h

theorem extractCitations_markers_aux : ∀ (n : Nat) (s : List Char), s.length ≤ n →
    extractCitations s = (textMarkers s).map (fun fd => markerText fd.1 fd.2) := by
  intro n
  induction n with
  | zero =>
    intro s hs
    have h0 : s = [] := List.length_eq_zero.mp (Nat.le_zero.mp hs)
    subst h0
    rfl
  | succ n ih =>
    intro s hs
    rw [extractCitations_eq, textMarkers_eq]
    cases hfm : findMatch s with
    | none => rfl
    | some q =>
      obtain ⟨pre, f, d, rest⟩ := q
      have hlt := findMatch_rest_length hfm
      simp only [List.map_cons]
      rw [ih rest (by omega)]

/-- C1: for every input text the citation renderer `MessageContent.renderContent`
produces exactly one citation element per well-formed marker
`[filename#digits]` (filename non-empty and free of `']'`, digits a non-empty
digit run), in left-to-right order of the markers, each element carrying that
marker's filename and digit sequence; all non-matching text is preserved
verbatim and in order (the rendered text re-concatenates to the input); and a
text with zero markers renders as exactly the input text. -/
theorem renderContent_citation_spec (s : List Char) :
    citationNodes (renderContent s) = textMarkers s
    ∧ renderedText s = s
    ∧ (∀ fd ∈ textMarkers s, fd.1 ≠ [] ∧ (∀ c ∈ fd.1, c ≠ ']')
        ∧ fd.2 ≠ [] ∧ fd.2.all Char.isDigit = true)
    ∧ (textMarkers s = [] → renderContent s = [RNode.textSpan s]) :=
  ⟨citationNodes_render_aux s.length s le_rfl,
   renderedText_aux s.length s le_rfl,
   textMarkers_wellformed_aux s.length s le_rfl,
   fun h => renderContent_of_no_markers h⟩

/-- C10: `extractCitations` and `MessageContent.renderContent` agree on what
counts as a citation: `extractCitations` returns exactly the matched marker
substrings in left-to-right order, and its length equals the number of
citation elements `renderContent` produces for the same text. -/
theorem extractCitations_agrees_with_renderer (s : List Char) :
    extractCitations s = (textMarkers s).map (fun fd => markerText fd.1 fd.2)
    ∧ (extractCitations s).length = (citationNodes (renderContent s)).length := by
  refine ⟨extractCitations_markers_aux s.length s le_rfl, ?_⟩
  rw [extractCitations_markers_aux s.length s le_rfl,
    citationNodes_render_aux s.length s le_rfl, List.length_map]

/-! ## The chat transcript state machine -/

theorem jsTrim_eq_nil_of_whitespace {s : List Char}
    (h : ∀ c ∈ s, jsIsWhitespace c = true) : jsTrim s = [] := by
  unfold jsTrim
  rw [List.dropWhile_eq_nil_iff.mpr h]
  rfl

/-- C4: invoking submit while the awaiting-response (`isLoading`) flag is set
changes nothing — the returned state is the input state (transcript and
sources table unchanged) — and issues no request, whatever the network would
have answered; so a second chat request is never started while one is in
flight. -/
theorem handleSubmit_while_loading (st : ChatState)
    (r : Except RawError ChatResponse) (h : st.isLoading = true) :
    handleSubmit st r = (st, false) := by
  unfold handleSubmit
  rw [if_pos (Or.inr h)]

/-- Witness for C4 at a concrete loading state. -/
theorem handleSubmit_while_loading_witness :
    handleSubmit sampleLoadingState (Except.ok sampleResponse)
      = (sampleLoadingState, false) :=
  handleSubmit_while_loading _ _ rfl

/-- C5: invoking submit on an input that is empty or consists only of
white space leaves the whole component state unchanged (message list and
sources table included) and issues no chat request. -/
theorem handleSubmit_blank_input (st : ChatState)
    (r : Except RawError ChatResponse)
    (h : ∀ c ∈ st.input, jsIsWhitespace c = true) :
    handleSubmit st r = (st, false) := by
  unfold handleSubmit
  rw [if_pos (Or.inl (jsTrim_eq_nil_of_whitespace h))]

/-- Witness for C5 at a whitespace-only concrete input. -/
theorem handleSubmit_blank_input_witness :
    handleSubmit sampleBlankState (Except.ok sampleResponse)
      = (sampleBlankState, false) :=
  handleSubmit_blank_input _ _ (by decide)

/-- C2: after a submit with non-blank input while idle and a successful chat
response, the transcript is the old one plus the trimmed user message and the
assistant message carrying the response's answer (length grows by exactly 2),
and when the response's sources are non-empty they are retrievable under the
key formed from the assistant message's position. -/
theorem handleSubmit_success_spec (st : ChatState) (response : ChatResponse)
    (hin : jsTrim st.input ≠ []) (hload : st.isLoading = false) :
    (handleSubmit st (Except.ok response)).1.messages
        = st.messages ++ [{ role := Role.user, content := jsTrim st.input },
            { role := Role.assistant, content := response.answer }]
    ∧ (handleSubmit st (Except.ok response)).1.messages.length
        = st.messages.length + 2
    ∧ (response.sources ≠ [] →
        ((handleSubmit st (Except.ok response)).1.sources.lookup
            (messageKey
              ((handleSubmit st (Except.ok response)).1.messages.length - 1)))
          = some response.sources) := by
  have hcond : ¬ (jsTrim st.input = [] ∨ st.isLoading = true) := by
    rintro (hc | hc)
    · exact hin hc
    · rw [hload] at hc; exact Bool.false_ne_true hc
  unfold handleSubmit
  rw [if_neg hcond]
  refine ⟨by simp, by simp, ?_⟩
  intro hsrc
  have hlen : response.sources.length > 0 := List.length_pos.mpr hsrc
  simp only [hlen, if_pos, List.length_append, List.length_cons]
  have hkey : st.messages.length + 2 - 1 = st.messages.length + 1 := by omega
  simp [List.lookup, hkey]

/-- Witness for C2 at a concrete idle state and response with one source. -/
theorem handleSubmit_success_witness :
    (handleSubmit sampleIdleState (Except.ok sampleResponse)).1.messages
        = [{ role := Role.user, content := ('h' :: 'i' :: []) },
           { role := Role.assistant, content := ('o' :: 'k' :: []) }]
    ∧ (handleSubmit sampleIdleState (Except.ok sampleResponse)).1.sources.lookup
        (messageKey 1) = some [sampleCitation] := by
  have h := handleSubmit_success_spec sampleIdleState sampleResponse
    (by decide) rfl
  refine ⟨by simpa [sampleIdleState, sampleResponse] using h.1, ?_⟩
  have h2 := h.2.2 (by simp [sampleResponse])
  rw [h.2.1] at h2
  simpa [sampleIdleState, sampleResponse] using h2

/-- C3: after a submit with non-blank input while idle and a failed chat
call, no exception escapes (the handler is a total state transition), the
transcript grows by exactly the user message and a synthetic assistant
message, that assistant content contains the normalized error's message text
as a contiguous substring, and the loading flag is reset. -/
theorem handleSubmit_failure_spec (st : ChatState) (err : RawError)
    (hin : jsTrim st.input ≠ []) (hload : st.isLoading = false) :
    (handleSubmit st (Except.error err)).1.messages
        = st.messages ++ [{ role := Role.user, content := jsTrim st.input },
            { role := Role.assistant,
              content := chatErrorText (handleApiError err).message }]
    ∧ (handleSubmit st (Except.error err)).1.messages.length
        = st.messages.length + 2
    ∧ (handleApiError err).message <:+: chatErrorText (handleApiError err).message
    ∧ (handleSubmit st (Except.error err)).1.isLoading = false := by
  have hcond : ¬ (jsTrim st.input = [] ∨ st.isLoading = true) := by
    rintro (hc | hc)
    · exact hin hc
    · rw [hload] at hc; exact Bool.false_ne_true hc
  unfold handleSubmit
  rw [if_neg hcond]
  refine ⟨by simp, by simp, ?_, rfl⟩
  exact ⟨("Sorry, I encountered an error: ").data, (". Please try again.").data, rfl⟩

/-- Witness for C3 at a concrete idle state and a concrete network error. -/
theorem handleSubmit_failure_witness :
    (handleSubmit sampleIdleState (Except.error sampleError)).1.messages
        = [{ role := Role.user, content := ('h' :: 'i' :: []) },
           { role := Role.assistant,
             content := chatErrorText ('b' :: 'o' :: 'o' :: 'm' :: []) }]
    ∧ ('b' :: 'o' :: 'o' :: 'm' :: []) <:+:
        chatErrorText ('b' :: 'o' :: 'o' :: 'm' :: []) := by
  have h := handleSubmit_failure_spec sampleIdleState sampleError
    (by decide) rfl
  refine ⟨?_, ?_⟩
  · have h1 := h.1
    simpa [sampleIdleState, sampleError, handleApiError, jsOrElse] using h1
  · have h3 := h.2.2.1
    simpa [sampleError, handleApiError, jsOrElse] using h3

/-! ## Document filtering -/

/-- C7: the two stages of `filterDocuments` commute: applying the tag filter
to the result of the query filter (which is exactly what `filterDocuments`
computes) yields the same document list as applying the query filter to the
result of the tag filter, for every document list, query and tag. -/
theorem filterDocuments_comm (docs : List DocumentInfo) (query tag : List Char) :
    filterDocuments docs query tag = filterByQuery query (filterByTag tag docs) := by
  unfold filterDocuments filterByQuery filterByTag
  by_cases hq : query = [] <;> by_cases ht : tag = [] <;> simp only [hq, ht, if_pos, if_neg, if_true, if_false, reduceIte]
  rw [List.filter_filter, List.filter_filter]
  exact List.filter_congr fun a _ => Bool.and_comm _ _

/-- Every document the document filter keeps was in the filtered list. -/
theorem filterDocuments_subset (docs : List DocumentInfo) (query tag : List Char) :
    ∀ doc ∈ filterDocuments docs query tag, doc ∈ docs := by
  intro doc hdoc
  unfold filterDocuments filterByQuery filterByTag at hdoc
  by_cases hq : query = [] <;> by_cases ht : tag = [] <;>
    simp only [hq, ht, if_pos, if_neg, if_true, if_false, reduceIte] at hdoc <;>
    first
      | exact hdoc
      | exact List.mem_of_mem_filter hdoc
      | exact List.mem_of_mem_filter (List.mem_of_mem_filter hdoc)

/-- One `DocumentList` step preserves the filtered-list-is-a-subset invariant. -/
theorem docListStep_preserves_subset (st : DocListState) (e : DocListEvent)
    (h : ∀ doc ∈ st.filteredDocuments, doc ∈ st.documents) :
    ∀ doc ∈ (docListStep st e).filteredDocuments, doc ∈ (docListStep st e).documents := by
  cases e with
  | load result =>
    cases result with
    | ok items => intro doc hdoc; exact hdoc
    | error err => intro doc hdoc; exact h doc hdoc
  | search q tg => intro doc hdoc; exact filterDocuments_subset _ _ _ doc hdoc
  | deleteDoc d result =>
    cases result with
    | ok resp =>
      intro doc hdoc
      simp only [docListStep] at hdoc ⊢
      rw [List.mem_filter] at hdoc ⊢
      exact ⟨h doc hdoc.1, hdoc.2⟩
    | error err => intro doc hdoc; exact h doc hdoc

theorem docListRun_subset_aux : ∀ (evs : List DocListEvent) (st : DocListState),
    (∀ doc ∈ st.filteredDocuments, doc ∈ st.documents) →
    ∀ doc ∈ (evs.foldl docListStep st).filteredDocuments,
      doc ∈ (evs.foldl docListStep st).documents := by
  intro evs
  induction evs with
  | nil => intro st h; exact h
  | cons e evs ih =>
    intro st h
    exact ih (docListStep st e) (docListStep_preserves_subset st e h)

/-- C9: in every state of `DocumentList` reachable by any sequence of load,
filter and delete operations, the filtered document list is a subset of the
full document list; and after a successful delete of `doc_id` `d` no document
with that id remains in either list. -/
theorem docList_invariant (events : List DocListEvent) :
    (∀ doc ∈ (docListRun events).filteredDocuments,
        doc ∈ (docListRun events).documents)
    ∧ ∀ (d : List Char) (r : DeleteResponse) (doc : DocumentInfo),
        (doc ∈ (docListStep (docListRun events)
            (DocListEvent.deleteDoc d (Except.ok r))).documents
          ∨ doc ∈ (docListStep (docListRun events)
              (DocListEvent.deleteDoc d (Except.ok r))).filteredDocuments) →
        doc.doc_id ≠ d := by
  constructor
  · exact docListRun_subset_aux events initialDocListState (by intro doc h; exact h)
  · intro d r doc hdoc
    rcases hdoc with hdoc | hdoc <;>
    · simp only [docListStep, List.mem_filter] at hdoc
      exact bne_iff_ne.mp hdoc.2

/-! ## Streaming chat event processing -/

/-- C8 (amended): over any sequence of server-sent-event lines and any JSON
parser, `streamChat`'s line loop satisfies: an empty sequence yields nothing;
a `data: [DONE]` line terminates the stream, discarding all later lines; a
`data: ` line whose payload fails to parse is skipped (logged warning only)
without aborting the stream; a `data: ` line whose payload parses to an
object with a truthy (non-empty) `token` field yields exactly that token
ahead of the rest of the stream, preserving input order; a parsed payload
whose `token` field is falsy or absent is skipped; and a line without the
`data: ` marker is ignored. -/
theorem streamChatLines_spec (parse : List Char → Option Json)
    (line : List Char) (rest : List (List Char)) :
    streamChatLines parse [] = ([], false)
    ∧ (hasPrefixSeq line dataMarker = true → line.drop 6 = doneMarker →
        streamChatLines parse (line :: rest) = ([], true))
    ∧ (hasPrefixSeq line dataMarker = true → line.drop 6 ≠ doneMarker →
        parse (line.drop 6) = none →
        streamChatLines parse (line :: rest) = streamChatLines parse rest)
    ∧ (∀ j tok, hasPrefixSeq line dataMarker = true →
        line.drop 6 ≠ doneMarker → parse (line.drop 6) = some j →
        tokenField j = some tok → jsTruthy tok = true →
        streamChatLines parse (line :: rest)
          = (tok :: (streamChatLines parse rest).1,
             (streamChatLines parse rest).2))
    ∧ (∀ j tok, hasPrefixSeq line dataMarker = true →
        line.drop 6 ≠ doneMarker → parse (line.drop 6) = some j →
        tokenField j = some tok → jsTruthy tok = false →
        streamChatLines parse (line :: rest) = streamChatLines parse rest)
    ∧ (∀ j, hasPrefixSeq line dataMarker = true →
        line.drop 6 ≠ doneMarker → parse (line.drop 6) = some j →
        tokenField j = none →
        streamChatLines parse (line :: rest) = streamChatLines parse rest)
    ∧ (hasPrefixSeq line dataMarker = false →
        streamChatLines parse (line :: rest) = streamChatLines parse rest) := by
  refine ⟨rfl, ?_, ?_, ?_, ?_, ?_, ?_⟩
  · intro h1 h2
    simp [streamChatLines, h1, h2]
  · intro h1 h2 h3
    simp [streamChatLines, h1, h2, h3]
  · intro j tok h1 h2 h3 h4 h5
    simp [streamChatLines, h1, h2, h3, h4, h5]
  · intro j tok h1 h2 h3 h4 h5
    simp [streamChatLines, h1, h2, h3, h4, h5]
  · intro j h1 h2 h3 h4
    simp [streamChatLines, h1, h2, h3, h4]
  · intro h1
    simp [streamChatLines, h1]

/-- C8 counterexample to the claim as stated: the payload of the line
`data: \x7b"token": ""\x7d` parses (as `JSON.parse` would) to an object that
does have a `token` field, holding the empty string, yet the loop yields no
token for it, because `if (parsed.token)` tests JS truthiness, and the empty
string is falsy. -/
theorem streamChatLines_empty_token_counterexample :
    tokenField (Json.obj [(tokenKey, Json.str [])]) = some (Json.str [])
    ∧ streamChatLines parseOnlyEmptyToken [dataMarker ++ emptyTokenPayload]
        = ([], false) :=
  ⟨rfl, rfl⟩

/-! ## Tag parsing -/

theorem dropWhile_head_false {α : Type} {p : α → Bool} :
    ∀ {l : List α} {a : α} {t : List α}, l.dropWhile p = a :: t → p a = false := by
  intro l
  induction l with
  | nil => intro a t h; simp [List.dropWhile] at h
  | cons c cs ih =>
    intro a t h
    rw [List.dropWhile_cons] at h
    split at h
    · exact ih h
    · next hc =>
      obtain ⟨h1, h2⟩ := List.cons.injEq .. ▸ h
      subst h1
      exact Bool.not_eq_true _ ▸ hc

theorem dropWhile_eq_self {α : Type} {p : α → Bool} {l : List α}
    (h : ∀ a t, l = a :: t → p a = false) : l.dropWhile p = l := by
  cases l with
  | nil => rfl
  | cons c cs =>
    rw [List.dropWhile_cons, if_neg]
    rw [h c cs rfl]
    simp

theorem dropWhile_idem {α : Type} {p : α → Bool} (l : List α) :
    (l.dropWhile p).dropWhile p = l.dropWhile p := by
  apply dropWhile_eq_self
  intro a t h
  exact dropWhile_head_false h

theorem jsTrim_idem (s : List Char) : jsTrim (jsTrim s) = jsTrim s := by
  have hzdrop : (jsTrim s).dropWhile jsIsWhitespace = jsTrim s := by
    apply dropWhile_eq_self
    intro a t h
    have hsuff : (jsTrim s).reverse <:+ (s.dropWhile jsIsWhitespace).reverse := by
      unfold jsTrim
      rw [List.reverse_reverse]
      exact List.dropWhile_suffix _
    have hpre : jsTrim s <+: s.dropWhile jsIsWhitespace := by
      exact List.reverse_suffix.mp hsuff
    obtain ⟨r, hr⟩ := hpre
    have hy : s.dropWhile jsIsWhitespace = a :: (t ++ r) := by
      rw [← hr, h]
      rfl
    exact dropWhile_head_false hy
  have hzrev : (jsTrim s).reverse.dropWhile jsIsWhitespace = (jsTrim s).reverse := by
    unfold jsTrim
    rw [List.reverse_reverse]
    exact dropWhile_idem _
  show (((jsTrim s).dropWhile jsIsWhitespace).reverse.dropWhile jsIsWhitespace).reverse = jsTrim s
  rw [hzdrop, hzrev, List.reverse_reverse]

theorem splitOnComma_ne_nil (s : List Char) : splitOnComma s ≠ [] := by
  cases s with
  | nil => simp [splitOnComma]
  | cons c cs =>
    by_cases hc : c = ','
    · simp [splitOnComma, hc]
    · cases hsc : splitOnComma cs <;> simp [splitOnComma, hc, hsc]

theorem joinComma_splitOnComma (s : List Char) :
    joinComma (splitOnComma s) = s := by
  induction s with
  | nil => rfl
  | cons c cs ih =>
    by_cases hc : c = ','
    · subst hc
      simp only [splitOnComma, if_pos]
      cases hsc : splitOnComma cs with
      | nil => exact absurd hsc (splitOnComma_ne_nil cs)
      | cons p ps =>
        show [] ++ ',' :: joinComma (p :: ps) = ',' :: cs
        rw [← hsc, ih]
        rfl
    · simp only [splitOnComma, if_neg hc]
      cases hsc : splitOnComma cs with
      | nil => exact absurd hsc (splitOnComma_ne_nil cs)
      | cons p ps =>
        simp only [hsc]
        cases ps with
        | nil =>
          show c :: p = c :: cs
          have hp : p = cs := by rw [hsc] at ih; exact ih
          rw [hp]
        | cons q qs =>
          show (c :: p) ++ ',' :: joinComma (q :: qs) = c :: cs
          have hcs : p ++ ',' :: joinComma (q :: qs) = cs := by
            rw [hsc] at ih
            exact ih
          rw [← hcs]
          rfl

/-- C6 counterexample: the tag input `a, a` is parsed by `handleUpload` to
the two-element list `[a, a]`, whose two tags are equal after trimming — the
list sent with the upload is not deduplicated. -/
theorem parseTags_not_deduplicated :
    parseTags ('a' :: ',' :: ' ' :: 'a' :: []) = [('a' :: []), ('a' :: [])]
    ∧ ¬ (parseTags ('a' :: ',' :: ' ' :: 'a' :: [])).Nodup := by
  constructor
  · rfl
  · decide

/-- C6 (amended): at submit time `handleUpload` parses the comma-separated
tag input by splitting on commas (a split `tags.join(',')` inverts exactly),
trimming each piece, and keeping only the non-empty results — every sent tag
is non-empty and trim-stable, and the sent list is a sublist of the trimmed
pieces (in order) — but the list is not deduplicated: equal tags may repeat. -/
theorem parseTags_spec (s : List Char) :
    joinComma (splitOnComma s) = s
    ∧ (∀ t ∈ parseTags s, t ≠ [] ∧ jsTrim t = t)
    ∧ List.Sublist (parseTags s) ((splitOnComma s).map jsTrim) := by
  refine ⟨joinComma_splitOnComma s, ?_, List.filter_sublist _⟩
  intro tg htg
  unfold parseTags at htg
  rw [List.mem_filter] at htg
  obtain ⟨hmem, hne⟩ := htg
  refine ⟨bne_iff_ne.mp hne, ?_⟩
  rw [List.mem_map] at hmem
  obtain ⟨x, _, hx⟩ := hmem
  rw [← hx]
  exact jsTrim_idem x

end Yotome
